import Mathlib

/-!
# Verification of the WhatsApp conversational-commerce bot core

Shallow embedding, in Lean 4, of the parts of the repository relevant to the
frozen claims:

* `services/normalize_text.py` — text normalization (`normalize_text`);
* `services/db.py` — chat-state upsert (`update_chat_state`), AI cursor
  operations (`claim_ai_message`, `update_ai_last_processed`);
* `routes/webhook.py` — the flow dispatcher (`process_step_chain`,
  `dispatch_rule`, `advance_steps`) and the session-expiry head of
  `handle_text_message`;
* `services/ai_worker.py` — the per-message body of `AIWorker.run`;
* `services/ai_responder.py` — the empty-index guard of
  `CatalogResponder.answer` and `_post_process_answer`.

Python strings that flow through `unicodedata` / `re` are modelled by lists of
`UChar`, a character model carrying exactly the attributes the source consults:
NFD decomposition, combining-mark (`Mn`) category, lowercase mapping, and the
`\w` word-character class.  Database rows are modelled as Lean structures and
MySQL statements as pure state transformations.  External effects (outgoing
WhatsApp sends, the OpenAI client, logging) are modelled as recorded events or
as oracle parameters giving the external call's outcome.
-/

namespace WhatsappIA

/-! ## Character model

A character model for the subset of Unicode the application manipulates
(Spanish product-catalog text).  Each constructor records the data
`normalize_text` consults:

* `letter base upperc accented` — a Latin letter; `accented = true` means the
  precomposed form with a combining mark (á, é, Á, ñ, ü, …), whose NFD
  decomposition is the bare letter followed by the mark;
* `mark` — a combining mark, Unicode category `Mn`;
* `digit n` — a decimal digit;
* `space` — whitespace;
* `underscore` — `_`, a `\w` character that the class `[\W_]` nevertheless
  matches;
* `punct code` — any other non-word character (punctuation, symbols), tagged
  with its code point so that distinct punctuation stays distinct.
-/
inductive UChar : Type
  | letter (base : Nat) (upperc : Bool) (accented : Bool)
  | mark
  | digit (n : Nat)
  | space
  | underscore
  | punct (code : Nat)
  deriving DecidableEq, Repr

namespace UChar

/-- NFD decomposition (`unicodedata.normalize('NFD', text)`): a precomposed
accented letter decomposes into the bare letter followed by a combining mark;
every other character is its own decomposition. -/
def nfd : UChar → List UChar
  | letter b u true => [letter b u false, mark]
  | c => [c]

/-- Unicode category test `unicodedata.category(ch) == 'Mn'`. -/
def isMn : UChar → Bool
  | mark => true
  | _ => false

/-- Python `str.lower()` on a single character. -/
def toLower : UChar → UChar
  | letter b _ a => letter b false a
  | c => c

/-- Python's `\w` class (alphanumerics and underscore; combining marks are not
alphanumeric for `re`). -/
def isWordChar : UChar → Bool
  | letter _ _ _ => true
  | digit _ => true
  | underscore => true
  | _ => false

/-- The regex class `[\W_]` of `normalize_text`: non-word characters plus the
underscore. -/
def isSep (c : UChar) : Bool :=
  !c.isWordChar || (c == underscore)

/-- Whitespace (`str.strip` / `\s`); in this model `space` is the only
whitespace character. -/
def isWhite (c : UChar) : Bool :=
  c == space

end UChar

/-- Texts are lists of model characters. -/
abbrev Txt := List UChar

/-- Model of `re.sub(r'[\W_]+', ' ', s)`: replace every maximal run of `[\W_]`
characters by a single space.  The boolean accumulator records whether the
previous character belonged to such a run (so the run only emits one space). -/
def collapseSeps : Bool → Txt → Txt
  | _, [] => []
  | inRun, c :: rest =>
    if c.isSep then
      if inRun then collapseSeps true rest
      else UChar.space :: collapseSeps true rest
    else c :: collapseSeps false rest

/-- Python `str.strip()` restricted to the space character (after `collapseSeps` the
only whitespace left in the string is `' '`). -/
def stripEnds (l : Txt) : Txt :=
  List.rdropWhile UChar.isWhite (List.dropWhile UChar.isWhite l)

/-- The first three stages of `normalize_text`: NFD-decompose
(`unicodedata.normalize('NFD', ...)`), drop combining marks
(`category(ch) != 'Mn'`), lowercase. -/
def decomposeLower (t : Txt) : Txt :=
  ((t.flatMap UChar.nfd).filter (fun c => !c.isMn)).map UChar.toLower

/-- Model of `services/normalize_text.py`, `normalize_text`: NFD-decompose, drop
combining marks, lowercase, collapse `[\W_]+` runs to single spaces, strip.
(The `isinstance(text, str)` guard is outside the model: `Txt` is always a
string.) -/
def normalize_text (t : Txt) : Txt :=
  stripEnds (collapseSeps false (decomposeLower t))

/-! ### Embedding concrete strings

`ofChar` maps an actual character to its model; it covers ASCII plus the
accented Latin letters used by the application's Spanish text. -/

/-- Model of a concrete character. -/
def ofChar (c : Char) : UChar :=
  if 'a' ≤ c ∧ c ≤ 'z' then .letter (c.toNat - 97) false false
  else if 'A' ≤ c ∧ c ≤ 'Z' then .letter (c.toNat - 65) true false
  else if '0' ≤ c ∧ c ≤ '9' then .digit (c.toNat - 48)
  else if c = ' ' then .space
  else if c = '_' then .underscore
  else if c = 'á' then .letter 0 false true
  else if c = 'é' then .letter 4 false true
  else if c = 'í' then .letter 8 false true
  else if c = 'ó' then .letter 14 false true
  else if c = 'ú' then .letter 20 false true
  else if c = 'ü' then .letter 20 false true
  else if c = 'ñ' then .letter 13 false true
  else if c = 'Á' then .letter 0 true true
  else if c = 'É' then .letter 4 true true
  else if c = 'Í' then .letter 8 true true
  else if c = 'Ó' then .letter 14 true true
  else if c = 'Ú' then .letter 20 true true
  else if c = 'Ü' then .letter 20 true true
  else if c = 'Ñ' then .letter 13 true true
  else if c = '́' then .mark
  else .punct c.toNat

/-- Model of a concrete string. -/
def ofString (s : String) : Txt :=
  s.data.map ofChar

example : normalize_text (ofString "  Hóla,  Mundo! ") = ofString "hola mundo" := by decide
example : normalize_text (ofString "envío") = ofString "envio" := by decide
example : normalize_text (ofString "domicilio,envío") = ofString "domicilio envio" := by decide
example : normalize_text (ofString "") = ofString "" := by decide

/-! ### Idempotence of `normalize_text`

The output of `normalize_text` consists of characters fixed by every stage of
the pipeline (`Fix`), whose separators are single isolated spaces, with no
space at either end (`Canon`); and every `Canon` text is a fixed point of
`normalize_text`. -/

/-- A character left unchanged by decomposition, mark filtering and
lowercasing. -/
def UChar.Fix (c : UChar) : Prop :=
  c.nfd = [c] ∧ c.isMn = false ∧ c.toLower = c

/-- No two adjacent characters are both spaces. -/
def NoAdjSpaces (l : Txt) : Prop :=
  l.Chain' (fun a b => ¬(a = UChar.space ∧ b = UChar.space))

/-- Canonical texts: the fixed points of `normalize_text`. -/
structure Canon (l : Txt) : Prop where
  fix : ∀ c ∈ l, UChar.Fix c
  sep_space : ∀ c ∈ l, c.isSep = true → c = UChar.space
  chain : NoAdjSpaces l
  head_not : ∀ c ∈ l.head?, c ≠ UChar.space
  last_not : ∀ c ∈ l.getLast?, c ≠ UChar.space

/-! ## ASCII string helpers

Configuration values, step names and status flags are plain ASCII strings; the
Python `.strip()` / `.lower()` calls on them are modelled by `trimStr` /
`lowerStr` (identical to the Python functions on this ASCII domain). -/

/-- Python `.lower()` on one ASCII character. -/
def lowerChar (c : Char) : Char :=
  if 'A' ≤ c ∧ c ≤ 'Z' then Char.ofNat (c.toNat + 32) else c

/-- Python `str.lower()` for ASCII strings. -/
def lowerStr (s : String) : String :=
  ⟨s.data.map lowerChar⟩

/-- Python `str.strip()` for strings whose whitespace is the space character. -/
def trimStr (s : String) : String :=
  ⟨List.rdropWhile (· == ' ') (s.data.dropWhile (· == ' '))⟩

/-- Python `.strip().lower()`, the combination used throughout the source. -/
def stripLower (s : String) : String :=
  lowerStr (trimStr s)

example : stripLower "  IA_Bloqueada " = "ia_bloqueada" := by decide
example : stripLower "ia_chat" = "ia_chat" := by decide

/-! ## Database layer (`services/db.py`) -/

/-- The constant `db.AI_BLOCKED_STATE`. -/
def AI_BLOCKED_STATE : String := "ia_bloqueada"

/-- One row of `chat_state` (`numero` is the key and is left implicit: every
model operates on the row of a single conversation). -/
structure ChatRow where
  step : String
  estado : Option String
  lastActivity : Int
  deriving DecidableEq, Repr

/-- The pre-read guard of `db.update_chat_state`: when `estado` is not `None`
and the stored estado is the blocked flag while the new one (stripped,
lowered) is not, the stored value is kept. -/
def resolveEstado (estado : Option String) (chat : Option ChatRow) : Option String :=
  match estado, chat with
  | some e, some row =>
    if stripLower (row.estado.getD "") = AI_BLOCKED_STATE ∧
        stripLower e ≠ AI_BLOCKED_STATE then
      row.estado
    else
      some e
  | e, _ => e

/-- SQL `COALESCE(a, b)`. -/
def coalesce (a b : Option String) : Option String :=
  match a with
  | some x => some x
  | none => b

/-- Model of `db.update_chat_state(numero, step, estado)`: the pre-read blocked-flag
guard (`resolveEstado`) followed by
`INSERT ... ON DUPLICATE KEY UPDATE step=VALUES(step),
estado=COALESCE(VALUES(estado), estado), last_activity=VALUES(last_activity)`
(`NOW()` modelled by `now`). -/
def update_chat_state (now : Int) (step : String) (estado : Option String)
    (chat : Option ChatRow) : Option ChatRow :=
  match chat with
  | none => some ⟨step, resolveEstado estado chat, now⟩
  | some row => some ⟨step, coalesce (resolveEstado estado chat) row.estado, now⟩

/-- The state shared between the webhook worker and the data layer: the
singleton `ia_settings` row (outer `none` = the row is absent, inner value =
`last_processed_message_id`, itself nullable) and the `chat_state` row of the
conversation under consideration. -/
structure DbState where
  iaRow : Option (Option Int)
  chat : Option ChatRow
  deriving DecidableEq, Repr

/-- Model of `db.claim_ai_message(expected_last_id, new_last_id)`: `SELECT ... FOR
UPDATE`; when the row is absent it is inserted with
`last_processed_message_id = expected_last_id` (so the subsequent comparison
trivially succeeds); `current_last = int(row[0] or 0)`; on mismatch commit and
return `False`; otherwise `UPDATE` the cursor to `new_last_id` and return
`True`. -/
def claim_ai_message (expected newLast : Int) (db : DbState) : Bool × DbState :=
  match db.iaRow with
  | none => (true, { db with iaRow := some (some newLast) })
  | some v =>
    if v.getD 0 = expected then (true, { db with iaRow := some (some newLast) })
    else (false, db)

/-- Model of `db.update_ai_last_processed(message_id)`: upsert that unconditionally
writes the cursor value. -/
def update_ai_last_processed (messageId : Int) (db : DbState) : DbState :=
  { db with iaRow := some (some messageId) }

/-! ## AI worker (`services/ai_worker.py`, `AIWorker.run`) -/

/-- The row shape produced by `db.get_messages_for_ai` (message id, sender,
text, plus the joined chat-state snapshot). -/
structure MsgRow where
  id : Int
  numero : String
  mensaje : String
  currentStep : Option String
  currentEstado : Option String
  deriving DecidableEq, Repr

/-- Worker-relevant configuration (`config.Config`). -/
structure WorkerCfg where
  aiHandoffStep : String
  aiFallbackMessage : String
  deriving DecidableEq, Repr

/-- The hard-coded message used when `Config.AI_FALLBACK_MESSAGE` is blank in
the exception path of `AIWorker.run`. -/
def defaultAiErrorMessage : String :=
  "Lo siento, ocurrió un problema con mi respuesta. Intenta nuevamente más tarde."

/-- Result of processing one candidate message in `AIWorker.run`: the new
database state, the worker's local cursor view (`last_id`), and the texts
passed to `enviar_mensaje` (reference-image sends, which carry no state, are
not recorded). -/
structure WorkerResult where
  db : DbState
  lastId : Int
  sent : List String
  deriving DecidableEq, Repr

/-- The flag `fallback_sent` as computed by the exception path of `AIWorker.run`: the
return value of the fallback `enviar_mensaje`, with an exception during the
send converted to `False` by the inner `try/except`. -/
def fallbackSentOf : Except Unit Bool → Bool
  | .ok b => b
  | .error _ => false

/-- The body of `AIWorker.run` for one candidate message of the fetched batch.

Oracle parameters stand for the external calls:
* `answerRes` — outcome of `responder.answer` (`.error ()` = the call raised,
  `.ok a` = it returned answer `a`; the accompanying reference list only feeds
  the image sends, which are not modelled);
* `fallbackSendRes` — outcome of the exception-path `enviar_mensaje`
  (`.error ()` = the send itself raised, which the source converts to
  `fallback_sent = False`);
* the return value of the success-path `enviar_mensaje` only gates the
  reference-image sends and is therefore not a parameter. -/
def worker_process_message (cfg : WorkerCfg) (now : Int)
    (answerRes : Except Unit (Option String))
    (fallbackSendRes : Except Unit Bool)
    (row : MsgRow) (lastId : Int) (db : DbState) : WorkerResult :=
  let previousLastId := lastId
  let claimed := claim_ai_message lastId row.id db
  if !claimed.1 then
    -- failed CAS: advance the local view only, answer nothing
    ⟨claimed.2, max lastId row.id, []⟩
  else
    let db := claimed.2
    let lastId := row.id
    let aiStepLower := stripLower cfg.aiHandoffStep
    let currentStep := stripLower (row.currentStep.getD "")
    let currentState := stripLower (row.currentEstado.getD "")
    if aiStepLower = "" then
      ⟨update_ai_last_processed row.id db, lastId, []⟩
    else if currentStep ≠ "" ∧ currentStep ≠ aiStepLower then
      ⟨update_ai_last_processed row.id db, lastId, []⟩
    else if currentState = AI_BLOCKED_STATE then
      ⟨update_ai_last_processed row.id db, lastId, []⟩
    else
      match answerRes with
      | .error _ =>
        let fallbackMessage :=
          if trimStr cfg.aiFallbackMessage = "" then defaultAiErrorMessage
          else trimStr cfg.aiFallbackMessage
        let fallbackSent := fallbackSentOf fallbackSendRes
        if fallbackSent then
          ⟨{ db with chat := update_chat_state now cfg.aiHandoffStep (some "ia_error") db.chat },
            lastId, [fallbackMessage]⟩
        else
          ⟨update_ai_last_processed previousLastId db, previousLastId, [fallbackMessage]⟩
      | .ok answer =>
        if answer.getD "" ≠ "" then
          ⟨{ db with chat := update_chat_state now cfg.aiHandoffStep (some "ia_activa") db.chat },
            lastId, [answer.getD ""]⟩
        else
          let fallback := trimStr cfg.aiFallbackMessage
          if fallback ≠ "" then
            ⟨{ db with chat := update_chat_state now cfg.aiHandoffStep (some "ia_fallback") db.chat },
              lastId, [fallback]⟩
          else
            ⟨db, lastId, []⟩

/-! ## Flow dispatcher (`routes/webhook.py`) -/

/-- One row of `reglas` (joined with `regla_medias`): rule id, owning step,
trigger pattern (`input_text`, nullable), response text, `next_step` chain
(nullable), response kind and attached media links.  The `opciones`,
`rol_keyword`, `calculo` and `handler` columns feed side effects outside the
claims (interactive payloads, role tagging, measurement handlers) and are not
modelled.  A rule table is a `List Regla` in ascending-id order, mirroring the
`ORDER BY r.id` of every query that reads it. -/
structure Regla where
  id : Nat
  step : String
  inputText : Option Txt
  respuesta : String
  siguiente : Option String
  tipo : String
  mediaUrls : List String
  deriving DecidableEq, Repr

/-- The literal wildcard trigger `'*'`. -/
def starTxt : Txt := [UChar.punct 42]

/-- The constant `DEFAULT_FALLBACK_TEXT` of `routes/webhook.py`. -/
def DEFAULT_FALLBACK_TEXT : String := "No entendí tu respuesta, intenta de nuevo."

/-- The query `SELECT ... FROM reglas ... WHERE r.step=%s ... ORDER BY r.id` (the table
is kept in id order, so filtering preserves it). -/
def rulesFor (dbr : List Regla) (step : String) : List Regla :=
  dbr.filter (fun r => r.step == step)

/-- The intermediate-hop query of `advance_steps`:
`WHERE r.step=%s AND r.input_text='*' ... ORDER BY r.id LIMIT 1`. -/
def wildcard_rule (dbr : List Regla) (step : String) : Option Regla :=
  (dbr.filter (fun r => r.step == step && r.inputText == some starTxt)).head?

/-- Model of `get_current_step(numero)`: `(row[0] or '').strip().lower()` of the
`chat_state` row, `''` when absent. -/
def get_current_step (chat : Option ChatRow) : String :=
  match chat with
  | some row => stripLower row.step
  | none => ""

/-- Python `str.split(',')` (`"".split(',') == ['']`, separators are not merged). -/
def splitCommaGo (acc : List Char) : List Char → List (List Char)
  | [] => [acc.reverse]
  | c :: rest =>
    if c = ',' then acc.reverse :: splitCommaGo [] rest
    else splitCommaGo (c :: acc) rest

/-- Python `str.split(',')` on a `String`. -/
def splitComma (s : String) : List String :=
  (splitCommaGo [] s.data).map fun cs => ⟨cs⟩

/-- The list `[s.strip().lower() for s in (steps_str or '').split(',') if s.strip()]`. -/
def parseSteps (s : String) : List String :=
  (((splitComma s).map trimStr).filter (· ≠ "")).map lowerStr

example : parseSteps "a, B ,c" = ["a", "b", "c"] := by decide
example : parseSteps "" = [] := by decide
example : parseSteps " , ," = [] := by decide

/-- The `enviar_mensaje` calls of `dispatch_rule`: for media response kinds
with attached media the response text goes out with the first attachment and
`''` with each further one; otherwise the response text goes out once. -/
def dispatchSends (r : Regla) : List String :=
  if (r.tipo = "image" ∨ r.tipo = "video" ∨ r.tipo = "audio" ∨ r.tipo = "document")
      ∧ r.mediaUrls ≠ [] then
    r.respuesta :: r.mediaUrls.tail.map (fun _ => "")
  else
    [r.respuesta]

/-- Observable state threaded through the dispatcher: the `chat_state` row,
the texts handed to `enviar_mensaje` in order, and the ids of the rules passed
to `dispatch_rule` in order.  (Role tagging writes to `chat_roles`, a table no
claim mentions, and is not modelled.) -/
structure FlowSt where
  chat : Option ChatRow
  sent : List String
  fired : List Nat
  deriving DecidableEq, Repr

/-- The mutually recursive calls of the dispatcher, reified so that the whole
recursion is structural on a fuel parameter (`dispatch_rule` →
`advance_steps` → per-intermediate-step loop → `dispatch_rule` → …). -/
inductive FlowCall : Type
  | adv (stepsStr : String)
  | inter (steps : List String)
  | disp (r : Regla)

/-- The dispatcher recursion (`dispatch_rule` / `advance_steps` of
`routes/webhook.py`).

* `.disp r` — `dispatch_rule`: send the rule's response (and media), record
  the rule as fired, then `advance_steps(numero, next_step)`;
* `.adv s` — `advance_steps`: parse the comma-separated chain; for every step
  but the last fire its wildcard rule if present (`.inter`), then persist only
  the last step via `set_user_step` (= `update_chat_state(numero, step,
  'espera_usuario')`);
* `.inter steps` — the `for step in steps[:-1]` loop body. -/
def flow_run : Nat → List Regla → Int → FlowCall → FlowSt → FlowSt
  | 0, _, _, _, st => st
  | fuel + 1, dbr, now, call, st =>
    match call with
    | .adv stepsStr =>
      match parseSteps stepsStr with
      | [] => st
      | hd :: tl =>
        let st' := flow_run fuel dbr now (.inter (hd :: tl).dropLast) st
        let lastStep := (hd :: tl).getLast (List.cons_ne_nil hd tl)
        { st' with chat := update_chat_state now lastStep (some "espera_usuario") st'.chat }
    | .inter [] => st
    | .inter (step :: rest) =>
      let st' :=
        match wildcard_rule dbr step with
        | some r => flow_run fuel dbr now (.disp r) st
        | none => st
      flow_run fuel dbr now (.inter rest) st'
    | .disp r =>
      flow_run fuel dbr now (.adv (r.siguiente.getD ""))
        { st with sent := st.sent ++ dispatchSends r, fired := st.fired ++ [r.id] }

/-- Model of `webhook.dispatch_rule(numero, regla, step)` (the effects relevant to the
claims: sends, fired-rule bookkeeping, and state advancement). -/
def dispatch_rule (fuel : Nat) (dbr : List Regla) (now : Int) (r : Regla)
    (st : FlowSt) : FlowSt :=
  flow_run fuel dbr now (.disp r) st

/-- Model of `webhook.advance_steps(numero, steps_str)`. -/
def advance_steps (fuel : Nat) (dbr : List Regla) (now : Int) (stepsStr : String)
    (st : FlowSt) : FlowSt :=
  flow_run fuel dbr now (.adv stepsStr) st

/-- Model of `webhook.process_step_chain(numero, text_norm)`: resolve the current step,
fetch its rules in id order, exact-match pass comparing
`normalize_text(input_text)` against `text_norm` as a whole, otherwise the
first wildcard rule, otherwise the fixed fallback text plus a `'sin_regla'`
state write.  `textNorm = none` models `text_norm=None`. -/
def process_step_chain (fuel : Nat) (dbr : List Regla) (now : Int)
    (textNorm : Option Txt) (st : FlowSt) : FlowSt :=
  let step := get_current_step st.chat
  if step = "" then st
  else
    let reglas := rulesFor dbr step
    if reglas = [] then st
    else
      let comodines := reglas.filter (fun r => stripEnds (r.inputText.getD []) == starTxt)
      if textNorm = none ∧ comodines = [] then st
      else
        match reglas.find? (fun r =>
            let patt := stripEnds (r.inputText.getD [])
            !patt.isEmpty && patt != starTxt && (some (normalize_text patt) == textNorm)) with
        | some r => dispatch_rule fuel dbr now r st
        | none =>
          match comodines with
          | r :: _ => dispatch_rule fuel dbr now r st
          | [] =>
            { st with
              sent := st.sent ++ [DEFAULT_FALLBACK_TEXT],
              chat := update_chat_state now (get_current_step st.chat)
                (some "sin_regla") st.chat }

/-! ## Session-expiry head of `webhook.handle_text_message` -/

/-- Outcome of the expiry check at the top of `handle_text_message`. -/
inductive ExpiryOutcome : Type
  | typeError
  | expired
  | proceed (stepDb : Option String) (refreshed : Bool)
  deriving DecidableEq, Repr

/-- The head of `webhook.handle_text_message`: `row = get_chat_state(numero)`
returns the tuple `(step, estado, last_activity)`, yet the source binds
`last_time = row[1]` — the `estado` column, a status string — and evaluates
`last_time and (now - last_time).total_seconds() > SESSION_TIMEOUT`.  With a
non-empty `estado`, `datetime - str` raises `TypeError`; with `estado` empty
or `NULL` the conjunction short-circuits and no expiry ever happens.  The
`last_activity` column (`row[2]`) and hence `now`/`sessionTimeout` are never
consulted.  `.expired` (delete + restart) is unreachable. -/
def handle_text_message_expiry (now sessionTimeout : Int) (row : Option ChatRow) :
    ExpiryOutcome :=
  match row with
  | none => .proceed none false
  | some r =>
    let lastTime := r.estado
    match lastTime with
    | some s => if s ≠ "" then .typeError else .proceed (some r.step) true
    | none => .proceed (some r.step) true

/-! ## Catalog responder (`services/ai_responder.py`) -/

/-- The guard at the top of `CatalogResponder.answer`: empty or blank
questions are rejected (`return None, []`), and after `_ensure_index_loaded`
an absent index object or empty metadata list also short-circuits with
`return None, []` (logging a warning).  The remainder of `answer`
(cache lookup, embedding, search, generation) is the opaque continuation
`rest`, entered only when the index is usable. -/
def answer_index_guard (question : String) (indexLoaded : Bool)
    (metadata : List String) (rest : Unit → Option String × List String) :
    Option String × List String :=
  if question = "" ∨ trimStr question = "" then (none, [])
  else if indexLoaded = false ∨ metadata = [] then (none, [])
  else rest ()

/-! ## Answer post-processing (`CatalogResponder._post_process_answer`) -/

/-- The regex class `[.!?]` of the sentence splitter. -/
def isSentEnd (c : UChar) : Bool :=
  c == UChar.punct 46 || c == UChar.punct 33 || c == UChar.punct 63

/-- The characters stripped by `truncated.rstrip(",;:-")`. -/
def isTrailerPunct (c : UChar) : Bool :=
  c == UChar.punct 44 || c == UChar.punct 59 || c == UChar.punct 58 || c == UChar.punct 45

/-- The appended `"…"` (U+2026). -/
def ellipsisChar : UChar := UChar.punct 8230

/-- Model of `re.split(r"(?<=[.!?])\s+", text)`: split on each maximal whitespace run
whose first character is preceded by `.`, `!` or `?`.  `inRun` records that
the current character continues such a run (its whitespace is consumed),
`prevEnd` that the previously consumed character was sentence-ending
punctuation, `acc` the current segment in reverse. -/
def splitSentencesGo : Bool → Bool → Txt → Txt → List Txt
  | _, _, acc, [] => [acc.reverse]
  | inRun, prevEnd, acc, c :: rest =>
    if inRun ∧ c.isWhite then splitSentencesGo true false acc rest
    else if prevEnd ∧ c.isWhite then acc.reverse :: splitSentencesGo true false [] rest
    else splitSentencesGo false (isSentEnd c) (c :: acc) rest

/-- The sentence list of `_post_process_answer`:
`[segment.strip() for segment in re.split(...) if segment.strip()]`. -/
def sentencesOf (t : Txt) : List Txt :=
  ((splitSentencesGo false false [] t).map stripEnds).filter (· ≠ [])

/-- Python `" ".join(sentences)`. -/
def joinSpace : List Txt → Txt
  | [] => []
  | [s] => s
  | s :: t :: rest => s ++ UChar.space :: joinSpace (t :: rest)

/-- Model of `truncated.rsplit(" ", 1)[0]`: drop the trailing run of non-space
characters together with the last space before it. -/
def rsplitSpaceHead (l : Txt) : Txt :=
  (List.rdropWhile (fun c => !c.isWhite) l).dropLast

/-- The two configurable bounds of `_post_process_answer`
(`Config.AI_RESPONSE_MAX_SENTENCES` / `Config.AI_RESPONSE_MAX_CHARS`). -/
structure PostCfg where
  maxSentences : Int
  maxChars : Int
  deriving DecidableEq, Repr

/-- The sentence clamp of `_post_process_answer`:
`cleaned = " ".join(sentences[:max_sentences]) if sentences else cleaned`
with `max_sentences = max(AI_RESPONSE_MAX_SENTENCES, 1)`. -/
def clampSentences (cfg : PostCfg) (cleaned : Txt) : Txt :=
  let sentences := sentencesOf cleaned
  if sentences ≠ [] then joinSpace (sentences.take (max cfg.maxSentences 1).toNat)
  else cleaned

/-- The character clamp of `_post_process_answer`: with
`max_chars = max(AI_RESPONSE_MAX_CHARS, 0)` non-zero and exceeded, cut at
`max_chars` characters, back up to the last space if one exists in the cut
prefix, strip trailing `,;:-` and append `…`. -/
def clampChars (cfg : PostCfg) (cleaned : Txt) : Txt :=
  let maxChars := max cfg.maxChars 0
  if maxChars ≠ 0 ∧ maxChars < (cleaned.length : Int) then
    let truncated := cleaned.take maxChars.toNat
    let truncated := if UChar.space ∈ truncated then rsplitSpaceHead truncated else truncated
    List.rdropWhile isTrailerPunct truncated ++ [ellipsisChar]
  else cleaned

/-- Model of `CatalogResponder._post_process_answer(text)`: strip; `None` when
blank; then the sentence clamp followed by the character clamp. -/
def post_process_answer (cfg : PostCfg) (text : Txt) : Option Txt :=
  let cleaned := stripEnds text
  if cleaned = [] then none
  else some (clampChars cfg (clampSentences cfg cleaned))

/-- Split events of `splitSentencesGo`, same flags and recursion. -/
def auxPoints : Bool → Bool → Txt → Nat
  | _, _, [] => 0
  | inRun, prevEnd, c :: rest =>
    if inRun ∧ c.isWhite then auxPoints true false rest
    else if prevEnd ∧ c.isWhite then 1 + auxPoints true false rest
    else auxPoints false (isSentEnd c) rest

/-- Number of adjacent pairs "sentence-ending punctuation followed by
whitespace" — one per maximal whitespace run the sentence splitter cuts at,
counted positionally so that it is monotone under prefixes. -/
def splitPoints : Txt → Nat
  | [] => 0
  | [_] => 0
  | a :: b :: rest =>
    (if isSentEnd a ∧ b.isWhite then 1 else 0) + splitPoints (b :: rest)

example :
    post_process_answer ⟨3, 5⟩ (ofString "aaaaaaa") =
      some (ofString "aaaaa" ++ [ellipsisChar]) := by decide

example :
    post_process_answer ⟨1, 100⟩ (ofString "Hola tienes. Dos frases. Tres frases.") =
      some (ofString "Hola tienes.") := by decide

example :
    post_process_answer ⟨3, 9⟩ (ofString "hola mundo grande") =
      some (ofString "hola" ++ [ellipsisChar]) := by decide

/-- Correction term of `auxPoints_le`: an immediately pending split (previous
character was sentence-ending, next is whitespace, not already inside a
consumed run) that the positional count cannot see. -/
def headBonus (inRun prevEnd : Bool) (l : Txt) : Nat :=
  if inRun = false ∧ prevEnd = true ∧ l.head?.any UChar.isWhite = true then 1 else 0

/-- The rule of `test_process_step_chain_multiple_triggers` in
`tests/test_webhook.py`: trigger list `"domicilio,envío"`. -/
def reglaEnvio : Regla :=
  ⟨1, "consulta_envio", some (ofString "domicilio,envío"),
    "Tenemos servicio de envío disponible", none, "text", []⟩

/-- Wildcard rules of the chain example `"a,b,c"`. -/
def reglaWildA : Regla := ⟨1, "a", some starTxt, "auto a", none, "text", []⟩

/-- See `reglaWildA`. -/
def reglaWildB : Regla := ⟨2, "b", some starTxt, "auto b", none, "text", []⟩

/-- See `reglaWildA`. -/
def reglaWildC : Regla := ⟨3, "c", some starTxt, "auto c", none, "text", []⟩

/-- Rule table of the chain example. -/
def dbrChain : List Regla := [reglaWildA, reglaWildB, reglaWildC]

/-! ## Normalization lemmas (towards C9) -/

lemma flatMap_nfd_eq_self {l : Txt} (h : ∀ c ∈ l, c.nfd = [c]) :
    l.flatMap UChar.nfd = l := by
  induction l with
  | nil => rfl
  | cons c rest ih =>
    simp only [List.flatMap_cons, h c (List.mem_cons_self c rest),
      List.singleton_append, List.cons.injEq, true_and]
    exact ih fun d hd => h d (List.mem_cons_of_mem c hd)

lemma map_toLower_eq_self {l : Txt} (h : ∀ c ∈ l, c.toLower = c) :
    l.map UChar.toLower = l := by
  induction l with
  | nil => rfl
  | cons c rest ih =>
    simp only [List.map_cons, h c (List.mem_cons_self c rest), List.cons.injEq, true_and]
    exact ih fun d hd => h d (List.mem_cons_of_mem c hd)

/-- Every character of `decomposeLower t` is a pipeline fixed point: the
non-mark components of an NFD decomposition are unaccented, and lowercasing
them yields a lowercase unaccented letter, digit, space, underscore or
punctuation character. -/
lemma fix_of_mem_decomposeLower {t : Txt} {c : UChar} (h : c ∈ decomposeLower t) :
    UChar.Fix c := by
  simp only [decomposeLower, List.mem_map, List.mem_filter, List.mem_flatMap] at h
  obtain ⟨d, ⟨⟨e, _, hde⟩, hdm⟩, rfl⟩ := h
  cases e with
  | letter b u a =>
    cases a with
    | true =>
      simp only [UChar.nfd, List.mem_cons, List.not_mem_nil, or_false] at hde
      rcases hde with rfl | rfl
      · exact ⟨rfl, rfl, rfl⟩
      · simp [UChar.isMn] at hdm
    | false =>
      simp only [UChar.nfd, List.mem_singleton] at hde
      subst hde
      exact ⟨rfl, rfl, rfl⟩
  | mark =>
    simp only [UChar.nfd, List.mem_singleton] at hde
    subst hde
    simp [UChar.isMn] at hdm
  | digit n =>
    simp only [UChar.nfd, List.mem_singleton] at hde
    subst hde
    exact ⟨rfl, rfl, rfl⟩
  | space =>
    simp only [UChar.nfd, List.mem_singleton] at hde
    subst hde
    exact ⟨rfl, rfl, rfl⟩
  | underscore =>
    simp only [UChar.nfd, List.mem_singleton] at hde
    subst hde
    exact ⟨rfl, rfl, rfl⟩
  | punct k =>
    simp only [UChar.nfd, List.mem_singleton] at hde
    subst hde
    exact ⟨rfl, rfl, rfl⟩

lemma collapseSeps_nil (b : Bool) : collapseSeps b [] = [] := rfl

lemma collapseSeps_cons_sep_run {c : UChar} (h : c.isSep = true) (rest : Txt) :
    collapseSeps true (c :: rest) = collapseSeps true rest := by
  simp [collapseSeps, h]

lemma collapseSeps_cons_sep_start {c : UChar} (h : c.isSep = true) (rest : Txt) :
    collapseSeps false (c :: rest) = UChar.space :: collapseSeps true rest := by
  simp [collapseSeps, h]

lemma collapseSeps_cons_nonsep {c : UChar} (h : c.isSep = false) (b : Bool) (rest : Txt) :
    collapseSeps b (c :: rest) = c :: collapseSeps false rest := by
  simp [collapseSeps, h]

lemma mem_collapseSeps {c : UChar} :
    ∀ {b : Bool} {l : Txt}, c ∈ collapseSeps b l →
      c = UChar.space ∨ (c ∈ l ∧ c.isSep = false) := by
  intro b l
  induction l generalizing b with
  | nil => intro h; simp [collapseSeps_nil] at h
  | cons d rest ih =>
    intro h
    cases hd : d.isSep with
    | true =>
      cases b with
      | true =>
        rw [collapseSeps_cons_sep_run hd] at h
        rcases ih h with h' | h'
        · exact Or.inl h'
        · exact Or.inr ⟨List.mem_cons_of_mem d h'.1, h'.2⟩
      | false =>
        rw [collapseSeps_cons_sep_start hd] at h
        rcases List.mem_cons.mp h with rfl | h'
        · exact Or.inl rfl
        · rcases ih h' with h'' | h''
          · exact Or.inl h''
          · exact Or.inr ⟨List.mem_cons_of_mem d h''.1, h''.2⟩
    | false =>
      rw [collapseSeps_cons_nonsep hd] at h
      rcases List.mem_cons.mp h with rfl | h'
      · exact Or.inr ⟨List.mem_cons_self _ _, hd⟩
      · rcases ih h' with h'' | h''
        · exact Or.inl h''
        · exact Or.inr ⟨List.mem_cons_of_mem d h''.1, h''.2⟩

lemma head_collapseSeps_true {l : Txt} {c : UChar}
    (h : c ∈ (collapseSeps true l).head?) : c.isSep = false := by
  induction l with
  | nil => simp [collapseSeps_nil] at h
  | cons d rest ih =>
    cases hd : d.isSep with
    | true =>
      rw [collapseSeps_cons_sep_run hd] at h
      exact ih h
    | false =>
      rw [collapseSeps_cons_nonsep hd] at h
      simp only [List.head?_cons, Option.mem_def, Option.some.injEq] at h
      subst h
      exact hd

lemma chain'_collapseSeps : ∀ (b : Bool) (l : Txt), NoAdjSpaces (collapseSeps b l) := by
  intro b l
  induction l generalizing b with
  | nil => simp [collapseSeps_nil, NoAdjSpaces]
  | cons d rest ih =>
    cases hd : d.isSep with
    | true =>
      cases b with
      | true =>
        rw [collapseSeps_cons_sep_run hd]
        exact ih true
      | false =>
        rw [collapseSeps_cons_sep_start hd]
        refine List.chain'_cons'.mpr ⟨?_, ih true⟩
        intro y hy hcontra
        have := head_collapseSeps_true hy
        rw [hcontra.2] at this
        simp [UChar.isSep, UChar.isWordChar] at this
    | false =>
      rw [collapseSeps_cons_nonsep hd]
      refine List.chain'_cons'.mpr ⟨?_, ih false⟩
      intro y hy hcontra
      rw [hcontra.1] at hd
      simp [UChar.isSep, UChar.isWordChar] at hd

lemma collapseSeps_eq_self : ∀ {l : Txt},
    (∀ c ∈ l, c.isSep = true → c = UChar.space) → NoAdjSpaces l →
    collapseSeps false l = l := by
  intro l
  induction l with
  | nil => intro _ _; rfl
  | cons d rest ih =>
    intro hsep hchain
    have hchain' : NoAdjSpaces rest := (List.chain'_cons'.mp hchain).2
    have hrest : ∀ c ∈ rest, c.isSep = true → c = UChar.space :=
      fun c hc => hsep c (List.mem_cons_of_mem d hc)
    cases hd : d.isSep with
    | true =>
      have hdspace : d = UChar.space := hsep d (List.mem_cons_self d rest) hd
      subst hdspace
      rw [collapseSeps_cons_sep_start hd]
      -- after an isolated space the next character is not a space, hence not a
      -- separator, so the `inRun` flag is immediately irrelevant
      cases rest with
      | nil => rfl
      | cons e rest' =>
        have he : e ≠ UChar.space := by
          intro hcontra
          exact (List.chain'_cons'.mp hchain).1 e (by simp) ⟨rfl, hcontra⟩
        have hesep : e.isSep = false := by
          cases hx : e.isSep with
          | false => rfl
          | true => exact absurd (hrest e (List.mem_cons_self e rest') hx) he
        rw [collapseSeps_cons_nonsep hesep, ← collapseSeps_cons_nonsep hesep false,
          ih hrest hchain']
    | false =>
      rw [collapseSeps_cons_nonsep hd, ih hrest hchain']

lemma stripEnds_eq_self {l : Txt}
    (hhead : ∀ c ∈ l.head?, c ≠ UChar.space) (hlast : ∀ c ∈ l.getLast?, c ≠ UChar.space) :
    stripEnds l = l := by
  unfold stripEnds
  have h1 : List.dropWhile UChar.isWhite l = l := by
    cases l with
    | nil => rfl
    | cons d rest =>
      have hd : d ≠ UChar.space := hhead d (by simp)
      have hw : UChar.isWhite d = false := by
        simp only [UChar.isWhite, beq_eq_false_iff_ne, ne_eq]
        exact hd
      simp [List.dropWhile_cons, hw]
  rw [h1, List.rdropWhile_eq_self_iff]
  intro hl hp
  have hmem : l.getLast hl ∈ l.getLast? := by
    rw [List.getLast?_eq_getLast l hl]
    simp
  exact hlast _ hmem (by simpa [UChar.isWhite] using hp)

lemma stripEnds_within (l : Txt) : stripEnds l <:+: l := by
  obtain ⟨t, ht⟩ := List.rdropWhile_prefix UChar.isWhite (List.dropWhile UChar.isWhite l)
  obtain ⟨s, hs⟩ := @List.dropWhile_suffix _ l UChar.isWhite
  refine ⟨s, t, ?_⟩
  conv_rhs => rw [← hs, ← ht]
  simp [stripEnds]

lemma stripEnds_head_not {l : Txt} : ∀ c ∈ (stripEnds l).head?, c ≠ UChar.space := by
  intro c hc
  unfold stripEnds at hc
  obtain ⟨t, ht⟩ := List.rdropWhile_prefix UChar.isWhite (List.dropWhile UChar.isWhite l)
  cases hout : List.rdropWhile UChar.isWhite (List.dropWhile UChar.isWhite l) with
  | nil => rw [hout] at hc; simp at hc
  | cons d rest =>
    rw [hout] at hc
    simp only [List.head?_cons, Option.mem_def, Option.some.injEq] at hc
    have hXeq : List.dropWhile UChar.isWhite l = d :: (rest ++ t) := by
      rw [← ht, hout]; simp
    have hXne : List.dropWhile UChar.isWhite l ≠ [] := by rw [hXeq]; simp
    have hhd := List.head_dropWhile_not UChar.isWhite l hXne
    have hd : (List.dropWhile UChar.isWhite l).head hXne = d := by
      simp [hXeq]
    rw [hd] at hhd
    intro hcontra
    rw [hc, hcontra] at hhd
    simp [UChar.isWhite] at hhd

lemma stripEnds_last_not {l : Txt} : ∀ c ∈ (stripEnds l).getLast?, c ≠ UChar.space := by
  intro c hc
  unfold stripEnds at hc
  by_cases hout : List.rdropWhile UChar.isWhite (List.dropWhile UChar.isWhite l) = []
  · rw [hout] at hc; simp at hc
  · have hlast := List.rdropWhile_last_not UChar.isWhite (List.dropWhile UChar.isWhite l) hout
    rw [List.getLast?_eq_getLast _ hout] at hc
    simp only [Option.mem_def, Option.some.injEq] at hc
    subst hc
    intro hcontra
    exact hlast (by simp [hcontra, UChar.isWhite])

/-- The output of `normalize_text` is canonical. -/
lemma normalize_canon (t : Txt) : Canon (normalize_text t) := by
  unfold normalize_text
  set Y := collapseSeps false (decomposeLower t) with hY
  have hsub : stripEnds Y ⊆ Y := (stripEnds_within Y).subset
  refine ⟨?_, ?_, ?_, stripEnds_head_not, stripEnds_last_not⟩
  · intro c hc
    rcases mem_collapseSeps (hY ▸ hsub hc) with rfl | ⟨hmem, _⟩
    · exact ⟨rfl, rfl, rfl⟩
    · exact fix_of_mem_decomposeLower hmem
  · intro c hc hcsep
    rcases mem_collapseSeps (hY ▸ hsub hc) with rfl | ⟨_, hns⟩
    · rfl
    · rw [hcsep] at hns; cases hns
  · exact List.Chain'.infix (chain'_collapseSeps false (decomposeLower t)) (stripEnds_within Y)

lemma canon_fixed {l : Txt} (h : Canon l) : normalize_text l = l := by
  unfold normalize_text decomposeLower
  have h1 : l.flatMap UChar.nfd = l :=
    flatMap_nfd_eq_self fun c hc => (h.fix c hc).1
  have h2 : l.filter (fun c => !c.isMn) = l :=
    List.filter_eq_self.mpr fun c hc => by simp [(h.fix c hc).2.1]
  have h3 : l.map UChar.toLower = l :=
    map_toLower_eq_self fun c hc => (h.fix c hc).2.2
  rw [h1, h2, h3, collapseSeps_eq_self h.sep_space h.chain,
    stripEnds_eq_self h.head_not h.last_not]

/-! ## Claim theorems -/

/-- C9: text normalization is idempotent and total — for every string `x`,
`normalize_text (normalize_text x) = normalize_text x` (totality is inherent:
`normalize_text` is a total Lean function), and the empty string maps to the
empty string. -/
theorem normalize_text_idempotent :
    (∀ x : Txt, normalize_text (normalize_text x) = normalize_text x) ∧
    normalize_text ([] : Txt) = [] :=
  ⟨fun x => canon_fixed (normalize_canon x), rfl⟩

/-- C10 (implicit frame property): `update_chat_state` with `estado=None` on
an existing row rewrites the step and the activity timestamp but coalesces the
`NULL` estado to the stored value, leaving the status flag untouched. -/
theorem update_chat_state_estado_none_frame (now : Int) (step : String) (row : ChatRow) :
    update_chat_state now step none (some row) = some ⟨step, row.estado, now⟩ := rfl

/-- C5 counterexample: the claim says any estado argument different from
`'ia_bloqueada'` leaves a stored `'ia_bloqueada'` unchanged, but the guard
compares strip-lowered values, so the distinct argument `"IA_BLOQUEADA"`
passes the guard and overwrites the stored flag with its own spelling. -/
theorem update_chat_state_blocked_overwritten_by_case_variant :
    "IA_BLOQUEADA" ≠ AI_BLOCKED_STATE ∧
    update_chat_state 5 "ia_chat" (some "IA_BLOQUEADA")
        (some ⟨"ia_chat", some AI_BLOCKED_STATE, 0⟩) =
      some ⟨"ia_chat", some "IA_BLOQUEADA", 5⟩ := by
  exact ⟨by decide, by decide⟩

/-- C5 (amended): the chat-state upsert preserves a stored `'ia_bloqueada'`
whenever the estado argument is `None` or a value whose `.strip().lower()` is
not `'ia_bloqueada'`; writing any spelling of the blocked value itself is the
explicit path that can replace it. -/
theorem update_chat_state_preserves_blocked (now : Int) (step : String)
    (estado : Option String) (row : ChatRow)
    (hrow : row.estado = some AI_BLOCKED_STATE)
    (harg : ∀ e ∈ estado, stripLower e ≠ AI_BLOCKED_STATE) :
    update_chat_state now step estado (some row) =
      some ⟨step, some AI_BLOCKED_STATE, now⟩ := by
  have hb : stripLower AI_BLOCKED_STATE = AI_BLOCKED_STATE := by decide
  cases estado with
  | none => simp [update_chat_state, resolveEstado, coalesce, hrow]
  | some e =>
    have he := harg e rfl
    simp [update_chat_state, resolveEstado, coalesce, hrow, hb, he]

/-- Witness for `update_chat_state_preserves_blocked` at a concrete input. -/
theorem update_chat_state_preserves_blocked_witness :
    update_chat_state 3 "menu" (some "espera_usuario")
        (some ⟨"ia_chat", some AI_BLOCKED_STATE, 0⟩) =
      some ⟨"menu", some AI_BLOCKED_STATE, 3⟩ :=
  update_chat_state_preserves_blocked 3 "menu" (some "espera_usuario")
    ⟨"ia_chat", some AI_BLOCKED_STATE, 0⟩ rfl (by decide)

/-- C1: the cursor claim is a compare-and-swap.  With the `ia_settings` row
present, `claim_ai_message expected newLast` succeeds and writes `newLast`
exactly when the stored value (`int(row[0] or 0)`) equals `expected`; on
mismatch it returns `False` with the state untouched; and two successive
claim attempts against the same expected prior value (with `newLast ≠
expected`, as in the worker where candidate ids exceed the cursor) cannot
both succeed, so the loser never processes the message. -/
theorem claim_ai_message_cas (db : DbState) (v : Option Int)
    (expected newLast n2 : Int) (hrow : db.iaRow = some v)
    (hne : newLast ≠ expected) :
    ((claim_ai_message expected newLast db).1 = true ↔ v.getD 0 = expected) ∧
    (v.getD 0 = expected →
      (claim_ai_message expected newLast db).2.iaRow = some (some newLast)) ∧
    (v.getD 0 ≠ expected → claim_ai_message expected newLast db = (false, db)) ∧
    ¬((claim_ai_message expected newLast db).1 = true ∧
      (claim_ai_message expected n2 (claim_ai_message expected newLast db).2).1 = true) := by
  by_cases h : v.getD 0 = expected <;>
    simp [claim_ai_message, hrow, h, hne]

/-- Witness for `claim_ai_message_cas` at a concrete state. -/
theorem claim_ai_message_cas_witness :
    ((claim_ai_message 41 42 ⟨some (some 41), none⟩).1 = true ↔
      (some (41 : Int)).getD 0 = 41) ∧
    ((some (41 : Int)).getD 0 = 41 →
      (claim_ai_message 41 42 ⟨some (some 41), none⟩).2.iaRow = some (some 42)) ∧
    ((some (41 : Int)).getD 0 ≠ 41 →
      claim_ai_message 41 42 ⟨some (some 41), none⟩ = (false, ⟨some (some 41), none⟩)) ∧
    ¬((claim_ai_message 41 42 ⟨some (some 41), none⟩).1 = true ∧
      (claim_ai_message 41 43 (claim_ai_message 41 42 ⟨some (some 41), none⟩).2).1 = true) :=
  claim_ai_message_cas ⟨some (some 41), none⟩ (some 41) 41 42 43 rfl (by decide)

/-- C7 counterexample: with the vector index absent/empty and a non-empty
question, `CatalogResponder.answer` returns `(None, [])` — it does not
produce any "catalog unavailable" answer template (that wording only exists
inside `_build_prompt`, which this early return never reaches). -/
theorem answer_empty_index_returns_none :
    ("¿Tienen cabañas?" ≠ "") ∧ trimStr "¿Tienen cabañas?" ≠ "" ∧
    answer_index_guard "¿Tienen cabañas?" false []
        (fun _ => (some "respuesta", ["ref"])) = (none, []) := by
  refine ⟨by decide, by decide, rfl⟩

/-- C7 (amended): an empty or absent index is a defined non-error state —
`answer` short-circuits and returns `(None, [])` for any non-blank question
(no exception; the worker's fallback-message path then handles the `None`). -/
theorem answer_index_guard_empty (question : String) (indexLoaded : Bool)
    (metadata : List String) (rest : Unit → Option String × List String)
    (hq : trimStr question ≠ "")
    (hempty : indexLoaded = false ∨ metadata = []) :
    answer_index_guard question indexLoaded metadata rest = (none, []) := by
  unfold answer_index_guard
  rcases hempty with h | h <;>
    by_cases hq0 : question = "" ∨ trimStr question = "" <;>
      simp [h, hq0]

/-- Witness for `answer_index_guard_empty` at a concrete input. -/
theorem answer_index_guard_empty_witness :
    answer_index_guard "hola" false ["chunk"]
      (fun _ => (some "x", [])) = (none, []) :=
  answer_index_guard_empty "hola" false ["chunk"] (fun _ => (some "x", []))
    (by decide) (Or.inl rfl)

/-- C3 (code bug): `handle_text_message` binds `last_time = row[1]`, but
`get_chat_state` returns `(step, estado, last_activity)`, so the expiry test
reads the status string instead of the timestamp.  With a stale
`last_activity` (0, far older than `now - SESSION_TIMEOUT`) and a normal
estado such as `'espera_usuario'`, the turn raises `TypeError`
(`datetime - str`) instead of deleting the chat state; with `estado` NULL the
check short-circuits and the stale chat proceeds with its old step instead of
being reset. -/
theorem handle_text_message_expiry_never_fires :
    handle_text_message_expiry 100000 1800
        (some ⟨"menu_principal", some "espera_usuario", 0⟩) = .typeError ∧
    handle_text_message_expiry 100000 1800
        (some ⟨"menu_principal", none, 0⟩) = .proceed (some "menu_principal") true := by
  exact ⟨rfl, rfl⟩

/-- C6 (code bug): `process_step_chain` compares
`normalize_text(input_text)` of the whole comma-separated trigger string
against the user input, never splitting on commas (that splitting exists only
in `db.get_step_triggers`, used by the keyword-redirect path).  For the rule
with triggers `"domicilio,envío"` the inputs `"domicilio"` and `"envío"` fire
no rule and fall through to the fixed fallback text — contradicting the
repository's own test `test_process_step_chain_multiple_triggers`, which
asserts the rule is dispatched for both inputs. -/
theorem process_step_chain_ignores_comma_triggers :
    (process_step_chain 5 [reglaEnvio] 0 (some (normalize_text (ofString "domicilio")))
        ⟨some ⟨"consulta_envio", none, 0⟩, [], []⟩).fired = [] ∧
    (process_step_chain 5 [reglaEnvio] 0 (some (normalize_text (ofString "domicilio")))
        ⟨some ⟨"consulta_envio", none, 0⟩, [], []⟩).sent = [DEFAULT_FALLBACK_TEXT] ∧
    (process_step_chain 5 [reglaEnvio] 0 (some (normalize_text (ofString "envío")))
        ⟨some ⟨"consulta_envio", none, 0⟩, [], []⟩).fired = [] := by
  refine ⟨by decide, by decide, by decide⟩

/-- C2: for a claimed message (cursor row present and equal to the worker's
`last_id`, handoff step configured, chat still in the handoff step, not
blocked) whose `responder.answer` raises: when the fallback send succeeds the
chat status is written to the error state `'ia_error'` and the persisted
cursor stays at the claimed message id; when it fails (returns `False` or
raises) the cursor is rolled back to its pre-claim value and the worker's
local cursor view follows, so the same message id is retried on a later
pass. -/
theorem worker_answer_exception_paths (cfg : WorkerCfg) (now : Int)
    (fallbackSendRes : Except Unit Bool) (row : MsgRow) (lastId : Int)
    (db : DbState) (v : Option Int) (crow : ChatRow)
    (hrow : db.iaRow = some v) (hv : v.getD 0 = lastId)
    (hstep : stripLower cfg.aiHandoffStep ≠ "")
    (hmatch : stripLower (row.currentStep.getD "") = "" ∨
      stripLower (row.currentStep.getD "") = stripLower cfg.aiHandoffStep)
    (hnb : stripLower (row.currentEstado.getD "") ≠ AI_BLOCKED_STATE)
    (hchat : db.chat = some crow)
    (hcnb : stripLower (crow.estado.getD "") ≠ AI_BLOCKED_STATE) :
    (fallbackSentOf fallbackSendRes = true →
      (worker_process_message cfg now (.error ()) fallbackSendRes row lastId db).db.iaRow
          = some (some row.id) ∧
      (worker_process_message cfg now (.error ()) fallbackSendRes row lastId db).db.chat
          = some ⟨cfg.aiHandoffStep, some "ia_error", now⟩) ∧
    (fallbackSentOf fallbackSendRes = false →
      (worker_process_message cfg now (.error ()) fallbackSendRes row lastId db).db.iaRow
          = some (some lastId) ∧
      (worker_process_message cfg now (.error ()) fallbackSendRes row lastId db).lastId
          = lastId) := by
  have hskip : ¬(stripLower (row.currentStep.getD "") ≠ "" ∧
      stripLower (row.currentStep.getD "") ≠ stripLower cfg.aiHandoffStep) := by
    rcases hmatch with h | h <;> simp [h]
  cases hfb : fallbackSentOf fallbackSendRes <;>
    simp [worker_process_message, claim_ai_message, update_ai_last_processed,
      update_chat_state, resolveEstado, coalesce, hrow, hv, hstep, hskip, hnb,
      hchat, hcnb, hfb]

/-- Witness for `worker_answer_exception_paths`: the scenario of
`test_worker_sends_fallback_and_marks_error` (cursor 5, message 6, fallback
send succeeds). -/
theorem worker_answer_exception_paths_witness :
    (fallbackSentOf (.ok true) = true →
      (worker_process_message ⟨"ia_chat", "Mensaje fallback"⟩ 7 (.error ()) (.ok true)
          ⟨6, "+521234567890", "Hola", some "ia_chat", none⟩ 5
          ⟨some (some 5), some ⟨"ia_chat", some "ia_activa", 1⟩⟩).db.iaRow
          = some (some 6) ∧
      (worker_process_message ⟨"ia_chat", "Mensaje fallback"⟩ 7 (.error ()) (.ok true)
          ⟨6, "+521234567890", "Hola", some "ia_chat", none⟩ 5
          ⟨some (some 5), some ⟨"ia_chat", some "ia_activa", 1⟩⟩).db.chat
          = some ⟨"ia_chat", some "ia_error", 7⟩) ∧
    (fallbackSentOf (.ok true) = false →
      (worker_process_message ⟨"ia_chat", "Mensaje fallback"⟩ 7 (.error ()) (.ok true)
          ⟨6, "+521234567890", "Hola", some "ia_chat", none⟩ 5
          ⟨some (some 5), some ⟨"ia_chat", some "ia_activa", 1⟩⟩).db.iaRow
          = some (some 5) ∧
      (worker_process_message ⟨"ia_chat", "Mensaje fallback"⟩ 7 (.error ()) (.ok true)
          ⟨6, "+521234567890", "Hola", some "ia_chat", none⟩ 5
          ⟨some (some 5), some ⟨"ia_chat", some "ia_activa", 1⟩⟩).lastId = 5) :=
  worker_answer_exception_paths ⟨"ia_chat", "Mensaje fallback"⟩ 7 (.ok true)
    ⟨6, "+521234567890", "Hola", some "ia_chat", none⟩ 5
    ⟨some (some 5), some ⟨"ia_chat", some "ia_activa", 1⟩⟩ (some 5)
    ⟨"ia_chat", some "ia_activa", 1⟩ rfl rfl (by decide) (Or.inr (by decide))
    (by decide) rfl (by decide)

/-! ### Multi-hop `next_step` chains (C4) -/

lemma flow_run_adv_of_empty {s : String} (h : parseSteps s = []) (fuel : Nat)
    (dbr : List Regla) (now : Int) (st : FlowSt) :
    flow_run (fuel + 1) dbr now (.adv s) st = st := by
  simp [flow_run, h]

lemma flow_run_disp_of_empty {r : Regla} (h : parseSteps (r.siguiente.getD "") = [])
    (fuel : Nat) (dbr : List Regla) (now : Int) (st : FlowSt) :
    flow_run (fuel + 2) dbr now (.disp r) st =
      { st with sent := st.sent ++ dispatchSends r, fired := st.fired ++ [r.id] } := by
  show flow_run (fuel + 1) dbr now (.adv (r.siguiente.getD "")) _ = _
  exact flow_run_adv_of_empty h fuel dbr now _

lemma flow_run_inter_cons (fuel : Nat) (dbr : List Regla) (now : Int)
    (step : String) (rest : List String) (st : FlowSt) :
    flow_run (fuel + 1) dbr now (.inter (step :: rest)) st =
      flow_run fuel dbr now (.inter rest)
        (match wildcard_rule dbr step with
          | some r => flow_run fuel dbr now (.disp r) st
          | none => st) := rfl

lemma flow_run_inter_spec (dbr : List Regla) (now : Int) :
    ∀ (steps : List String) (fuel : Nat) (st : FlowSt),
      steps.length + 2 ≤ fuel →
      (∀ step ∈ steps, ∀ r, wildcard_rule dbr step = some r →
        parseSteps (r.siguiente.getD "") = []) →
      flow_run fuel dbr now (.inter steps) st =
        { chat := st.chat,
          sent := st.sent ++ (steps.filterMap (wildcard_rule dbr)).flatMap dispatchSends,
          fired := st.fired ++ (steps.filterMap (wildcard_rule dbr)).map Regla.id } := by
  intro steps
  induction steps with
  | nil =>
    intro fuel st hfuel _
    obtain ⟨f, rfl⟩ : ∃ f, fuel = f + 1 := ⟨fuel - 1, by omega⟩
    simp [flow_run]
  | cons step rest ih =>
    intro fuel st hfuel hnochain
    simp only [List.length_cons] at hfuel
    obtain ⟨g, rfl⟩ : ∃ g, fuel = (g + 2) + 1 := ⟨fuel - 3, by omega⟩
    have hrest : ∀ step ∈ rest, ∀ r, wildcard_rule dbr step = some r →
        parseSteps (r.siguiente.getD "") = [] :=
      fun s hs => hnochain s (List.mem_cons_of_mem step hs)
    have hfuel' : rest.length + 2 ≤ g + 2 := by omega
    rw [flow_run_inter_cons]
    cases hw : wildcard_rule dbr step with
    | none =>
      show flow_run (g + 2) dbr now (.inter rest) st = _
      rw [ih (g + 2) st hfuel' hrest]
      simp [hw, List.filterMap_cons]
    | some r =>
      have hempty := hnochain step (List.mem_cons_self step rest) r hw
      show flow_run (g + 2) dbr now (.inter rest)
        (flow_run (g + 2) dbr now (.disp r) st) = _
      rw [flow_run_disp_of_empty hempty g dbr now st, ih (g + 2) _ hfuel' hrest]
      simp [hw, List.filterMap_cons]


lemma flow_run_adv_cons {s : String} {hd : String} {tl : List String}
    (h : parseSteps s = hd :: tl) (fuel : Nat) (dbr : List Regla) (now : Int)
    (st : FlowSt) :
    flow_run (fuel + 1) dbr now (.adv s) st =
      { flow_run fuel dbr now (.inter (hd :: tl).dropLast) st with
        chat := update_chat_state now ((hd :: tl).getLast (List.cons_ne_nil hd tl))
          (some "espera_usuario")
          (flow_run fuel dbr now (.inter (hd :: tl).dropLast) st).chat } := by
  simp [flow_run, h]

lemma wildcard_rule_mem {dbr : List Regla} {step : String} {r : Regla}
    (h : wildcard_rule dbr step = some r) : r ∈ dbr ∧ r.step = step := by
  unfold wildcard_rule at h
  have hm : r ∈ List.filter (fun r => r.step == step && r.inputText == some starTxt) dbr :=
    List.mem_of_mem_head? h
  have hf := List.mem_filter.mp hm
  refine ⟨hf.1, ?_⟩
  have := hf.2
  simp only [Bool.and_eq_true, beq_iff_eq] at this
  exact this.1

lemma advance_steps_spec (dbr : List Regla) (now : Int) (stepsStr : String)
    (steps : List String) (fuel : Nat) (st : FlowSt)
    (hs : parseSteps stepsStr = steps) (hne : steps ≠ [])
    (hfuel : steps.length + 3 ≤ fuel)
    (hnochain : ∀ step ∈ steps.dropLast, ∀ r, wildcard_rule dbr step = some r →
      parseSteps (r.siguiente.getD "") = []) :
    advance_steps fuel dbr now stepsStr st =
      { chat := update_chat_state now (steps.getLast hne) (some "espera_usuario") st.chat,
        sent := st.sent ++ (steps.dropLast.filterMap (wildcard_rule dbr)).flatMap dispatchSends,
        fired := st.fired ++ (steps.dropLast.filterMap (wildcard_rule dbr)).map Regla.id } := by
  obtain ⟨f, rfl⟩ : ∃ f, fuel = f + 1 := ⟨fuel - 1, by omega⟩
  cases steps with
  | nil => exact absurd rfl hne
  | cons hd tl =>
    unfold advance_steps
    rw [flow_run_adv_cons hs f dbr now st]
    have hfuel' : (hd :: tl).dropLast.length + 2 ≤ f := by
      simp only [List.length_cons] at hfuel
      simp only [List.length_dropLast, List.length_cons]
      omega
    rw [flow_run_inter_spec dbr now (hd :: tl).dropLast f st hfuel' hnochain]

/-- C4: dispatching a multi-hop `next_step` chain fires, for every step but
the last, that step's wildcard rule when it has one (and nothing else, in
chain order), persists only the final step name as the chat's current step,
and does not fire the final step's own wildcard rule in the same turn.
Hypotheses restrict to the scenario the claim describes: the chain's
intermediate wildcard rules do not themselves chain further, the final step
is not also an intermediate one, rule ids are unique, and the fuel bound of
the embedding covers the recursion. -/
theorem advance_steps_multi_hop_chain (dbr : List Regla) (now : Int)
    (stepsStr : String) (steps : List String) (fuel : Nat) (st : FlowSt)
    (hs : parseSteps stepsStr = steps) (hne : steps ≠ [])
    (hfuel : steps.length + 3 ≤ fuel) (hfired : st.fired = [])
    (hids : (dbr.map Regla.id).Nodup)
    (hfresh : steps.getLast hne ∉ steps.dropLast)
    (hnochain : ∀ step ∈ steps.dropLast, ∀ r, wildcard_rule dbr step = some r →
      parseSteps (r.siguiente.getD "") = []) :
    (advance_steps fuel dbr now stepsStr st).fired =
      (steps.dropLast.filterMap (wildcard_rule dbr)).map Regla.id ∧
    (advance_steps fuel dbr now stepsStr st).chat =
      update_chat_state now (steps.getLast hne) (some "espera_usuario") st.chat ∧
    ((advance_steps fuel dbr now stepsStr st).chat).map ChatRow.step =
      some (steps.getLast hne) ∧
    (∀ r, wildcard_rule dbr (steps.getLast hne) = some r →
      r.id ∉ (advance_steps fuel dbr now stepsStr st).fired) := by
  rw [advance_steps_spec dbr now stepsStr steps fuel st hs hne hfuel hnochain]
  refine ⟨by simp [hfired], rfl, ?_, ?_⟩
  · cases hc : st.chat <;> simp [update_chat_state]
  · intro r hr hmem
    simp only [hfired, List.nil_append] at hmem
    obtain ⟨r', hr', hid⟩ := List.mem_map.mp hmem
    obtain ⟨step', hstep', hwr⟩ := List.mem_filterMap.mp hr'
    obtain ⟨hrmem, hrstep⟩ := wildcard_rule_mem hwr
    obtain ⟨hrmem2, hrstep2⟩ := wildcard_rule_mem hr
    have hrr : r' = r := List.inj_on_of_nodup_map hids hrmem hrmem2 hid
    subst hrr
    rw [hrstep] at hrstep2
    exact hfresh (hrstep2 ▸ hstep')

/-- Witness for `advance_steps_multi_hop_chain`: chain `"a,b,c"`, every step
carrying a wildcard rule — `a`'s and `b`'s wildcards fire, only `"c"` is
persisted, and `c`'s wildcard (rule 3) does not fire. -/
theorem advance_steps_multi_hop_chain_witness :
    (advance_steps 10 dbrChain 7 "a,b,c" ⟨some ⟨"x", none, 0⟩, [], []⟩).fired =
      ((["a", "b", "c"].dropLast).filterMap (wildcard_rule dbrChain)).map Regla.id ∧
    (advance_steps 10 dbrChain 7 "a,b,c" ⟨some ⟨"x", none, 0⟩, [], []⟩).chat =
      update_chat_state 7 (["a", "b", "c"].getLast (by decide)) (some "espera_usuario")
        (some ⟨"x", none, 0⟩) ∧
    ((advance_steps 10 dbrChain 7 "a,b,c" ⟨some ⟨"x", none, 0⟩, [], []⟩).chat).map
        ChatRow.step = some (["a", "b", "c"].getLast (by decide)) ∧
    (∀ r, wildcard_rule dbrChain (["a", "b", "c"].getLast (by decide)) = some r →
      r.id ∉ (advance_steps 10 dbrChain 7 "a,b,c" ⟨some ⟨"x", none, 0⟩, [], []⟩).fired) :=
  advance_steps_multi_hop_chain dbrChain 7 "a,b,c" ["a", "b", "c"] 10
    ⟨some ⟨"x", none, 0⟩, [], []⟩ (by decide) (by decide) (by decide) rfl
    (by decide) (by decide)
    (by
      intro step hstep r hr
      fin_cases hstep
      · rw [show wildcard_rule dbrChain "a" = some reglaWildA from by decide] at hr
        injection hr with h
        subst h
        decide
      · rw [show wildcard_rule dbrChain "b" = some reglaWildB from by decide] at hr
        injection hr with h
        subst h
        decide)

/-! ### Post-processing bounds (C8) -/

lemma splitPoints_cons_le (c : UChar) (l : Txt) :
    splitPoints l ≤ splitPoints (c :: l) := by
  cases l with
  | nil => simp [splitPoints]
  | cons b rest => simp [splitPoints]

lemma splitPoints_cons_not_sentEnd {c : UChar} (h : isSentEnd c = false) (l : Txt) :
    splitPoints (c :: l) = splitPoints l := by
  cases l with
  | nil => simp [splitPoints]
  | cons b rest => simp [splitPoints, h]

lemma splitPoints_suffix_le {l₁ l₂ : Txt} (h : l₁ <:+ l₂) :
    splitPoints l₁ ≤ splitPoints l₂ := by
  obtain ⟨pre, rfl⟩ := h
  induction pre with
  | nil => simp
  | cons c rest ih => exact ih.trans (splitPoints_cons_le c _)

lemma splitPoints_take_le : ∀ (l : Txt) (n : Nat), splitPoints (l.take n) ≤ splitPoints l := by
  intro l
  induction l with
  | nil => intro n; simp
  | cons a rest ih =>
    intro n
    cases n with
    | zero => simp [splitPoints]
    | succ m =>
      cases rest with
      | nil => simp [List.take]
      | cons b rest' =>
        cases m with
        | zero => simp [splitPoints, List.take]
        | succ k =>
          show splitPoints (a :: b :: List.take k rest') ≤ splitPoints (a :: b :: rest')
          simp only [splitPoints]
          have := ih (k + 1)
          simp only [List.take] at this
          omega

lemma splitPoints_prefix_le {l₁ l₂ : Txt} (h : l₁ <+: l₂) :
    splitPoints l₁ ≤ splitPoints l₂ := by
  obtain ⟨t, rfl⟩ := h
  have heq : l₁ = (l₁ ++ t).take l₁.length := by simp
  conv_lhs => rw [heq]
  exact splitPoints_take_le (l₁ ++ t) l₁.length

lemma splitPoints_append_le : ∀ (l₁ l₂ : Txt),
    splitPoints (l₁ ++ l₂) ≤ splitPoints l₁ + 1 + splitPoints l₂ := by
  intro l₁
  induction l₁ with
  | nil => intro l₂; simp
  | cons a rest ih =>
    intro l₂
    cases rest with
    | nil =>
      cases l₂ with
      | nil => simp [splitPoints]
      | cons b t =>
        show splitPoints (a :: b :: t) ≤ splitPoints [a] + 1 + splitPoints (b :: t)
        simp only [splitPoints]
        have hle : (if isSentEnd a = true ∧ b.isWhite = true then 1 else 0) ≤ 1 := by
          split <;> simp
        omega
    | cons b rest' =>
      show splitPoints (a :: b :: (rest' ++ l₂)) ≤ splitPoints (a :: b :: rest') + 1 + splitPoints l₂
      simp only [splitPoints]
      have := ih l₂
      simp only [List.cons_append] at this ⊢
      have h2 : splitPoints (b :: rest' ++ l₂) ≤ splitPoints (b :: rest') + 1 + splitPoints l₂ := this
      omega

lemma splitPoints_concat_le {e : UChar} (he : e.isWhite = false) :
    ∀ (l : Txt), splitPoints (l ++ [e]) ≤ splitPoints l := by
  intro l
  induction l with
  | nil => simp [splitPoints]
  | cons a rest ih =>
    cases rest with
    | nil =>
      show splitPoints (a :: e :: []) ≤ splitPoints [a]
      simp [splitPoints, he]
    | cons b rest' =>
      show splitPoints (a :: b :: (rest' ++ [e])) ≤ splitPoints (a :: b :: rest')
      simp only [splitPoints]
      have := ih
      simp only [List.cons_append] at this ⊢
      omega

lemma splitPoints_concat_eq {c : UChar} :
    ∀ {M : Txt}, (∀ d ∈ M.getLast?, ¬(isSentEnd d = true ∧ c.isWhite = true)) →
      splitPoints (M ++ [c]) = splitPoints M := by
  intro M
  induction M with
  | nil => intro _; simp [splitPoints]
  | cons a rest ih =>
    intro h
    cases rest with
    | nil =>
      have ha := h a (by simp)
      show splitPoints (a :: c :: []) = splitPoints [a]
      simp only [splitPoints]
      have : ¬(isSentEnd a = true ∧ c.isWhite = true) := ha
      by_cases h1 : isSentEnd a = true ∧ c.isWhite = true
      · exact absurd h1 this
      · simp [h1]
    | cons b rest' =>
      have hh : ∀ d ∈ (b :: rest').getLast?, ¬(isSentEnd d = true ∧ c.isWhite = true) := by
        intro d hd
        exact h d (by rw [List.getLast?_cons_cons]; exact hd)
      show splitPoints (a :: b :: (rest' ++ [c])) = splitPoints (a :: b :: rest')
      simp only [splitPoints]
      have hrec : splitPoints ((b :: rest') ++ [c]) = splitPoints (b :: rest') := ih hh
      simp only [List.cons_append] at hrec
      omega

lemma auxPoints_le : ∀ (l : Txt) (inRun prevEnd : Bool),
    auxPoints inRun prevEnd l ≤ splitPoints l + headBonus inRun prevEnd l := by
  intro l
  induction l with
  | nil => intro inRun prevEnd; simp [auxPoints, splitPoints]
  | cons c rest ih =>
    intro inRun prevEnd
    have key3 : auxPoints false (isSentEnd c) rest ≤ splitPoints (c :: rest) := by
      refine (ih false (isSentEnd c)).trans ?_
      cases rest with
      | nil => simp [headBonus, splitPoints]
      | cons d t =>
        have hsp : splitPoints (c :: d :: t) =
            (if isSentEnd c = true ∧ d.isWhite = true then 1 else 0) + splitPoints (d :: t) := rfl
        rw [hsp]
        by_cases hcd : isSentEnd c = true ∧ d.isWhite = true <;>
          simp [headBonus, hcd] <;> omega
    cases hw : c.isWhite with
    | false =>
      have ha : auxPoints inRun prevEnd (c :: rest) = auxPoints false (isSentEnd c) rest := by
        simp [auxPoints, hw]
      rw [ha]
      exact key3.trans (Nat.le_add_right _ _)
    | true =>
      cases hr : inRun with
      | true =>
        have ha : auxPoints true prevEnd (c :: rest) = auxPoints true false rest := by
          simp [auxPoints, hw]
        rw [ha]
        refine ((ih true false).trans ?_).trans (Nat.le_add_right _ _)
        have hb : headBonus true false rest = 0 := by simp [headBonus]
        rw [hb]
        simpa using splitPoints_cons_le c rest
      | false =>
        cases hp : prevEnd with
        | false =>
          have ha : auxPoints false false (c :: rest) = auxPoints false (isSentEnd c) rest := by
            simp [auxPoints, hw]
          rw [ha]
          exact key3.trans (Nat.le_add_right _ _)
        | true =>
          have ha : auxPoints false true (c :: rest) = 1 + auxPoints true false rest := by
            simp [auxPoints, hw]
          rw [ha]
          have h2 := ih true false
          have hb : headBonus true false rest = 0 := by simp [headBonus]
          rw [hb] at h2
          have h3 := splitPoints_cons_le c rest
          have hb2 : headBonus false true (c :: rest) = 1 := by
            simp [headBonus, hw]
          omega

lemma length_splitSentencesGo : ∀ (l : Txt) (inRun prevEnd : Bool) (acc : Txt),
    (splitSentencesGo inRun prevEnd acc l).length = auxPoints inRun prevEnd l + 1 := by
  intro l
  induction l with
  | nil => intro inRun prevEnd acc; simp [splitSentencesGo, auxPoints]
  | cons c rest ih =>
    intro inRun prevEnd acc
    by_cases h1 : inRun = true ∧ c.isWhite = true
    · have e1 : splitSentencesGo inRun prevEnd acc (c :: rest) =
          splitSentencesGo true false acc rest := by
        simp [splitSentencesGo, h1]
      have e2 : auxPoints inRun prevEnd (c :: rest) = auxPoints true false rest := by
        simp [auxPoints, h1]
      rw [e1, e2]
      exact ih true false acc
    · by_cases h2 : prevEnd = true ∧ c.isWhite = true
      · have hr : inRun = false := by
          cases hI : inRun with
          | false => rfl
          | true => exact absurd ⟨hI, h2.2⟩ h1
        have e1 : splitSentencesGo inRun prevEnd acc (c :: rest) =
            acc.reverse :: splitSentencesGo true false [] rest := by
          simp [splitSentencesGo, h1, h2, hr]
        have e2 : auxPoints inRun prevEnd (c :: rest) = 1 + auxPoints true false rest := by
          simp [auxPoints, h1, h2, hr]
        rw [e1, e2, List.length_cons, ih true false []]
        omega
      · have e1 : splitSentencesGo inRun prevEnd acc (c :: rest) =
            splitSentencesGo false (isSentEnd c) (c :: acc) rest := by
          simp [splitSentencesGo, h1, h2]
        have e2 : auxPoints inRun prevEnd (c :: rest) = auxPoints false (isSentEnd c) rest := by
          simp [auxPoints, h1, h2]
        rw [e1, e2]
        exact ih false (isSentEnd c) (c :: acc)

lemma splitPoints_infix_le {l₁ l₂ : Txt} (h : l₁ <:+: l₂) :
    splitPoints l₁ ≤ splitPoints l₂ := by
  obtain ⟨s, t, rfl⟩ := h
  calc splitPoints l₁ ≤ splitPoints (l₁ ++ t) := splitPoints_prefix_le ⟨t, rfl⟩
    _ ≤ splitPoints (s ++ (l₁ ++ t)) := splitPoints_suffix_le ⟨s, rfl⟩
    _ = splitPoints (s ++ l₁ ++ t) := by rw [List.append_assoc]

/-- Inside every segment the splitter emits, no sentence-ending punctuation is
immediately followed by whitespace (otherwise the splitter would have cut
there). -/
lemma splitPoints_eq_zero_of_mem_go : ∀ (l : Txt) (inRun prevEnd : Bool) (acc : Txt),
    splitPoints acc.reverse = 0 →
    (∀ d ∈ acc.head?, prevEnd = isSentEnd d) →
    (inRun = true → acc = []) →
    ∀ seg ∈ splitSentencesGo inRun prevEnd acc l, splitPoints seg = 0 := by
  intro l
  induction l with
  | nil =>
    intro inRun prevEnd acc h1 _ _ seg hseg
    simp only [splitSentencesGo, List.mem_singleton] at hseg
    subst hseg
    exact h1
  | cons c rest ih =>
    intro inRun prevEnd acc h1 h2 h3 seg hseg
    by_cases hb1 : inRun = true ∧ c.isWhite = true
    · have hacc : acc = [] := h3 hb1.1
      subst hacc
      rw [show splitSentencesGo inRun prevEnd [] (c :: rest) =
          splitSentencesGo true false [] rest from by simp [splitSentencesGo, hb1]] at hseg
      exact ih true false [] (by simp [splitPoints]) (by simp) (fun _ => rfl) seg hseg
    · by_cases hb2 : prevEnd = true ∧ c.isWhite = true
      · have hr : inRun = false := by
          cases hI : inRun with
          | false => rfl
          | true => exact absurd ⟨hI, hb2.2⟩ hb1
        rw [show splitSentencesGo inRun prevEnd acc (c :: rest) =
            acc.reverse :: splitSentencesGo true false [] rest from by
          simp [splitSentencesGo, hb1, hb2, hr]] at hseg
        rcases List.mem_cons.mp hseg with rfl | hseg'
        · exact h1
        · exact ih true false [] (by simp [splitPoints]) (by simp) (fun _ => rfl) seg hseg'
      · rw [show splitSentencesGo inRun prevEnd acc (c :: rest) =
            splitSentencesGo false (isSentEnd c) (c :: acc) rest from by
          simp [splitSentencesGo, hb1, hb2]] at hseg
        refine ih false (isSentEnd c) (c :: acc) ?_ ?_ (by simp) seg hseg
        · rw [List.reverse_cons, splitPoints_concat_eq ?_]
          · exact h1
          · intro d hd hcontra
            rw [List.getLast?_reverse] at hd
            have hpe : prevEnd = isSentEnd d := h2 d hd
            exact hb2 ⟨hpe.trans hcontra.1, hcontra.2⟩
        · intro d hd
          simp only [List.head?_cons, Option.mem_def, Option.some.injEq] at hd
          subst hd
          rfl

lemma first_seg_pre : ∀ (l : Txt) (inRun prevEnd : Bool) (acc : Txt),
    ∃ seg rest', splitSentencesGo inRun prevEnd acc l = seg :: rest' ∧
      acc.reverse <+: seg := by
  intro l
  induction l with
  | nil =>
    intro inRun prevEnd acc
    exact ⟨acc.reverse, [], rfl, List.prefix_refl _⟩
  | cons c rest ih =>
    intro inRun prevEnd acc
    by_cases hb1 : inRun = true ∧ c.isWhite = true
    · obtain ⟨seg, rest', heq, hpre⟩ := ih true false acc
      exact ⟨seg, rest', by simp [splitSentencesGo, hb1, heq], hpre⟩
    · by_cases hb2 : prevEnd = true ∧ c.isWhite = true
      · have hr : inRun = false := by
          cases hI : inRun with
          | false => rfl
          | true => exact absurd ⟨hI, hb2.2⟩ hb1
        exact ⟨acc.reverse, splitSentencesGo true false [] rest,
          by simp [splitSentencesGo, hb1, hb2, hr], List.prefix_refl _⟩
      · obtain ⟨seg, rest', heq, hpre⟩ := ih false (isSentEnd c) (c :: acc)
        refine ⟨seg, rest', by simp [splitSentencesGo, hb1, hb2, heq], ?_⟩
        refine List.IsPrefix.trans ?_ hpre
        rw [List.reverse_cons]
        exact ⟨[c], rfl⟩

lemma mem_dropWhile_of_not_white {c : UChar} :
    ∀ {l : Txt}, c ∈ l → c.isWhite = false → c ∈ l.dropWhile UChar.isWhite := by
  intro l
  induction l with
  | nil => intro h _; cases h
  | cons d rest ih =>
    intro hmem hw
    cases hd : d.isWhite with
    | true =>
      rw [List.dropWhile_cons_of_pos hd]
      rcases List.mem_cons.mp hmem with rfl | h'
      · rw [hd] at hw; cases hw
      · exact ih h' hw
    | false =>
      rw [List.dropWhile_cons_of_neg (by simp [hd])]
      exact hmem

lemma stripEnds_ne_nil {c : UChar} {l : Txt} (hc : c ∈ l) (hw : c.isWhite = false) :
    stripEnds l ≠ [] := by
  unfold stripEnds
  intro h
  rw [List.rdropWhile_eq_nil_iff] at h
  exact (by simp [hw] : ¬ c.isWhite = true) (h c (mem_dropWhile_of_not_white hc hw))

lemma sentencesOf_ne_nil {c : UChar} (rest : Txt) (hc : c.isWhite = false) :
    sentencesOf (c :: rest) ≠ [] := by
  unfold sentencesOf
  have hgo : splitSentencesGo false false [] (c :: rest) =
      splitSentencesGo false (isSentEnd c) [c] rest := by
    simp [splitSentencesGo, hc]
  rw [hgo]
  obtain ⟨seg, rest', heq, hpre⟩ := first_seg_pre rest false (isSentEnd c) [c]
  rw [heq]
  have hcseg : c ∈ seg := hpre.subset (by simp)
  have hne : stripEnds seg ≠ [] := stripEnds_ne_nil hcseg hc
  simp only [List.map_cons, List.filter_cons]
  rw [if_pos (by simpa using hne)]
  exact List.cons_ne_nil _ _

lemma sentencesOf_length_le (t : Txt) :
    (sentencesOf t).length ≤ splitPoints t + 1 := by
  unfold sentencesOf
  calc (((splitSentencesGo false false [] t).map stripEnds).filter (· ≠ [])).length
      ≤ ((splitSentencesGo false false [] t).map stripEnds).length :=
        List.length_filter_le _ _
    _ = (splitSentencesGo false false [] t).length := by simp
    _ = auxPoints false false t + 1 := length_splitSentencesGo t false false []
    _ ≤ splitPoints t + 1 := by
        have h := auxPoints_le t false false
        have hb : headBonus false false t = 0 := by simp [headBonus]
        omega

lemma splitPoints_joinSpace : ∀ (ss : List Txt), (∀ s ∈ ss, splitPoints s = 0) →
    ss ≠ [] → splitPoints (joinSpace ss) + 1 ≤ ss.length := by
  intro ss
  induction ss with
  | nil => intro _ h; exact absurd rfl h
  | cons s rest ih =>
    intro hzero _
    cases rest with
    | nil =>
      simp [joinSpace, hzero s (by simp)]
    | cons t rest' =>
      have hs : splitPoints s = 0 := hzero s (by simp)
      have hrest : ∀ x ∈ t :: rest', splitPoints x = 0 :=
        fun x hx => hzero x (List.mem_cons_of_mem s hx)
      have hih := ih hrest (List.cons_ne_nil t rest')
      have h1 : splitPoints (joinSpace (s :: t :: rest')) ≤
          splitPoints s + 1 + splitPoints (UChar.space :: joinSpace (t :: rest')) := by
        show splitPoints (s ++ UChar.space :: joinSpace (t :: rest')) ≤ _
        exact splitPoints_append_le s _
      have h2 : splitPoints (UChar.space :: joinSpace (t :: rest')) =
          splitPoints (joinSpace (t :: rest')) :=
        splitPoints_cons_not_sentEnd (by rfl) _
      simp only [List.length_cons] at hih ⊢
      omega

lemma splitPoints_of_mem_sentencesOf {s t : Txt} (h : s ∈ sentencesOf t) :
    splitPoints s = 0 := by
  unfold sentencesOf at h
  have h' := List.mem_of_mem_filter h
  obtain ⟨seg, hseg, rfl⟩ := List.mem_map.mp h'
  have hz : splitPoints seg = 0 :=
    splitPoints_eq_zero_of_mem_go t false false [] (by simp [splitPoints]) (by simp)
      (fun _ => rfl) seg hseg
  have := splitPoints_infix_le (stripEnds_within seg)
  omega

lemma clampSentences_points (cfg : PostCfg) (cleaned : Txt)
    (hne : sentencesOf cleaned ≠ []) :
    splitPoints (clampSentences cfg cleaned) + 1 ≤ (max cfg.maxSentences 1).toNat := by
  have hN : 1 ≤ (max cfg.maxSentences 1).toNat := by
    have h1 : (1 : Int) ≤ max cfg.maxSentences 1 := le_max_right _ _
    omega
  have htake_ne : (sentencesOf cleaned).take (max cfg.maxSentences 1).toNat ≠ [] := by
    cases hs : sentencesOf cleaned with
    | nil => exact absurd hs hne
    | cons a t =>
      obtain ⟨m, hm⟩ : ∃ m, (max cfg.maxSentences 1).toNat = m + 1 :=
        ⟨(max cfg.maxSentences 1).toNat - 1, by omega⟩
      rw [hm]
      simp
  have hzero : ∀ s ∈ (sentencesOf cleaned).take (max cfg.maxSentences 1).toNat,
      splitPoints s = 0 :=
    fun s hs => splitPoints_of_mem_sentencesOf (List.take_subset _ _ hs)
  have hj := splitPoints_joinSpace _ hzero htake_ne
  have hlen : ((sentencesOf cleaned).take (max cfg.maxSentences 1).toNat).length ≤
      (max cfg.maxSentences 1).toNat := by
    rw [List.length_take]
    omega
  unfold clampSentences
  rw [if_pos hne]
  omega

lemma rdropWhile_pre (p : UChar → Bool) (l : Txt) : List.rdropWhile p l <+: l :=
  List.rdropWhile_prefix p l

lemma rsplitSpaceHead_pre (l : Txt) : rsplitSpaceHead l <+: l := by
  have h1 := List.dropLast_prefix (List.rdropWhile (fun c => !c.isWhite) l)
  exact h1.trans (rdropWhile_pre _ l)

lemma clampChars_points (cfg : PostCfg) (s : Txt) :
    splitPoints (clampChars cfg s) ≤ splitPoints s := by
  unfold clampChars
  dsimp only
  split
  · refine le_trans (splitPoints_concat_le (by decide) _) ?_
    refine le_trans (splitPoints_prefix_le (rdropWhile_pre _ _)) ?_
    split
    · exact le_trans (splitPoints_prefix_le (rsplitSpaceHead_pre _))
        (splitPoints_take_le s _)
    · exact splitPoints_take_le s _
  · exact le_refl _

lemma clampChars_length (cfg : PostCfg) (s : Txt) (hmc : 1 ≤ cfg.maxChars) :
    (clampChars cfg s).length ≤ cfg.maxChars.toNat + 1 ∧
    (((clampChars cfg s).length : Int) ≤ cfg.maxChars ∨
      (clampChars cfg s).getLast? = some ellipsisChar) := by
  have hmax : max cfg.maxChars 0 = cfg.maxChars := max_eq_left (by omega)
  unfold clampChars
  rw [hmax]
  by_cases hcond : cfg.maxChars ≠ 0 ∧ cfg.maxChars < (s.length : Int)
  · rw [if_pos hcond]
    have hT : (s.take cfg.maxChars.toNat).length ≤ cfg.maxChars.toNat := by
      rw [List.length_take]
      omega
    have hT' : (if UChar.space ∈ s.take cfg.maxChars.toNat then
        rsplitSpaceHead (s.take cfg.maxChars.toNat) else
        s.take cfg.maxChars.toNat).length ≤ cfg.maxChars.toNat := by
      split
      · exact le_trans ((rsplitSpaceHead_pre _).length_le) hT
      · exact hT
    have hR : (List.rdropWhile isTrailerPunct _).length ≤ cfg.maxChars.toNat :=
      le_trans ((rdropWhile_pre isTrailerPunct _).length_le) hT'
    constructor
    · rw [List.length_append]
      simpa using hR
    · exact Or.inr (List.getLast?_concat _)
  · rw [if_neg hcond]
    have hlen : (s.length : Int) ≤ cfg.maxChars := by
      rcases not_and_or.mp hcond with h | h
      · exact absurd (by omega) h
      · omega
    constructor
    · omega
    · exact Or.inl hlen

/-- C8 counterexample: with `AI_RESPONSE_MAX_SENTENCES = 3` and
`AI_RESPONSE_MAX_CHARS = 5`, the seven-character answer `"aaaaaaa"` (no word
boundary in the cut prefix) post-processes to `"aaaaa…"` — six characters,
exceeding the configured character maximum. -/
theorem post_process_answer_exceeds_max_chars :
    post_process_answer ⟨3, 5⟩ (ofString "aaaaaaa") =
      some (ofString "aaaaa" ++ [ellipsisChar]) ∧
    (ofString "aaaaa" ++ [ellipsisChar]).length = 6 := by
  exact ⟨by decide, by decide⟩

/-- C8 (amended): for every answer text accepted by the post-processing step
(with a positive character budget), the result contains at most the
configured maximum number of sentences (under the splitter's own sentence
notion) and at most one character more than the configured maximum — the
appended ellipsis may exceed the budget by exactly one when no word boundary
exists in the cut prefix — and any result over the character budget ends with
the ellipsis marking the truncation. -/
theorem post_process_answer_bounds (cfg : PostCfg) (text res : Txt)
    (h : post_process_answer cfg text = some res) (hmc : 1 ≤ cfg.maxChars) :
    (sentencesOf res).length ≤ (max cfg.maxSentences 1).toNat ∧
    (res.length : Int) ≤ cfg.maxChars + 1 ∧
    ((res.length : Int) ≤ cfg.maxChars ∨ res.getLast? = some ellipsisChar) := by
  unfold post_process_answer at h
  by_cases hcl : stripEnds text = []
  · rw [if_pos hcl] at h
    cases h
  · rw [if_neg hcl] at h
    have hres : res = clampChars cfg (clampSentences cfg (stripEnds text)) :=
      (Option.some.injEq _ _ ▸ h).symm
    subst hres
    obtain ⟨c, rest, hC⟩ : ∃ c rest, stripEnds text = c :: rest := by
      cases hx : stripEnds text with
      | nil => exact absurd hx hcl
      | cons c rest => exact ⟨c, rest, rfl⟩
    have hcw : c.isWhite = false := by
      have := @stripEnds_head_not text c (by rw [hC]; simp)
      simp only [UChar.isWhite, beq_eq_false_iff_ne, ne_eq]
      exact this
    have hsne : sentencesOf (stripEnds text) ≠ [] := by
      rw [hC]
      exact sentencesOf_ne_nil rest hcw
    have hpts := clampSentences_points cfg (stripEnds text) hsne
    have hpts2 := clampChars_points cfg (clampSentences cfg (stripEnds text))
    obtain ⟨hlen1, hlen2⟩ := clampChars_length cfg (clampSentences cfg (stripEnds text)) hmc
    refine ⟨?_, ?_, hlen2⟩
    · have hsc := sentencesOf_length_le (clampChars cfg (clampSentences cfg (stripEnds text)))
      omega
    · have hcast : (cfg.maxChars.toNat : Int) = cfg.maxChars := Int.toNat_of_nonneg (by omega)
      omega

/-- Witness for `post_process_answer_bounds`: the counterexample input itself,
`"aaaaaaa"` with budgets (3 sentences, 5 characters). -/
theorem post_process_answer_bounds_witness :
    (sentencesOf (ofString "aaaaa" ++ [ellipsisChar])).length ≤
      (max (3 : Int) 1).toNat ∧
    (((ofString "aaaaa" ++ [ellipsisChar]).length : Int)) ≤ (5 : Int) + 1 ∧
    ((((ofString "aaaaa" ++ [ellipsisChar]).length : Int)) ≤ (5 : Int) ∨
      (ofString "aaaaa" ++ [ellipsisChar]).getLast? = some ellipsisChar) :=
  post_process_answer_bounds ⟨3, 5⟩ (ofString "aaaaaaa")
    (ofString "aaaaa" ++ [ellipsisChar]) (by decide) (by decide)

end WhatsappIA
